import Mathlib

/-!
Verification of the pyanimats evolutionary-algorithm engine.

This file gives a shallow embedding of the parts of `pyanimats.py` and
`fitness_functions.py` that the checked properties are about, and settles
each property against that embedding.

Conventions of the embedding:
* Python floats are modelled as rationals (`ℚ`); the numerical claims here
  involve only field operations and comparisons, which agree.
* The shared stream of the `random` module is modelled explicitly: each
  iteration of the rejection loop in `select` consumes one pair
  `(i, q)` from the stream, where `i` picks the candidate returned by
  `random.choice` (uniform over the population, taken modulo its length)
  and `q ∈ [0,1]` is the subsequent `random.random()` draw.
* Fallible Python code (exceptions) is modelled with `Except`: `max` of an
  empty sequence raises `ValueError`, division by zero raises
  `ZeroDivisionError`, and exhausting the modelled random stream stands for
  non-termination of the unbounded `while` loop.
* Python's `sorted` and `np.lexsort` are stable sorts; `List.insertionSort`
  is a stable sort, and two stable sorts of the same list with respect to
  the same preorder return the same list, so the embedding uses
  `List.insertionSort` for both.
* Code of the repository that lives in files not present here (`animat.py`,
  in particular `Animat.__init__`, `Fitness.set`, `Animat.mutate` and
  `Animat.lineage`) is modelled from the spec; each such definition says so
  in its doc comment.
-/

namespace PyAnimats

/-! ## Data model -/

/-- The fitness record of an animat: `raw` is the fitness-function output and
`value` the transformed selection fitness (`animat.fitness.raw` and
`animat.fitness.value` in the source). -/
structure Fitness where
  raw : ℚ
  value : ℚ
deriving DecidableEq, Repr

/-- An animat: genome, generation index, fitness record, auxiliary metrics
(`alt_fitness`), trial counters and the parent back-reference (`None` for
generation-0 animats).  The parent chain makes this an inductive type. -/
inductive Animat : Type where
  | mk (genome : List ℤ) (gen : ℕ) (fitness : Fitness) (altFitness : List ℚ)
      (correct : ℕ) (incorrect : ℕ) (parent : Option Animat) : Animat

/-- The genome of an animat. -/
def Animat.genome : Animat → List ℤ
  | .mk g _ _ _ _ _ _ => g

/-- The generation index of an animat. -/
def Animat.gen : Animat → ℕ
  | .mk _ n _ _ _ _ _ => n

/-- The fitness record of an animat. -/
def Animat.fitness : Animat → Fitness
  | .mk _ _ f _ _ _ _ => f

/-- The auxiliary metrics (`alt_fitness`) of an animat. -/
def Animat.altFitness : Animat → List ℚ
  | .mk _ _ _ a _ _ _ => a

/-- The correct-trial counter of an animat. -/
def Animat.correct : Animat → ℕ
  | .mk _ _ _ _ c _ _ => c

/-- The incorrect-trial counter of an animat. -/
def Animat.incorrect : Animat → ℕ
  | .mk _ _ _ _ _ i _ => i

/-- The parent back-reference of an animat. -/
def Animat.parent : Animat → Option Animat
  | .mk _ _ _ _ _ _ p => p

/-- Replace the generation index (the `animat.gen = gen` assignment). -/
def Animat.withGen : Animat → ℕ → Animat
  | .mk g _ f a c i p, n => .mk g n f a c i p

/-- Replace the fitness record. -/
def Animat.withFitness : Animat → Fitness → Animat
  | .mk g n _ a c i p, f => .mk g n f a c i p

/-- Replace the auxiliary metrics (the `animat.alt_fitness = ...` assignment). -/
def Animat.withAlt : Animat → List ℚ → Animat
  | .mk g n f _ c i p, a => .mk g n f a c i p

/-- Replace the parent back-reference (the `offspring[i].parent = pop[i]`
assignment). -/
def Animat.withParent : Animat → Option Animat → Animat
  | .mk g n f a c i _, p => .mk g n f a c i p

/-- Replace the genome. -/
def Animat.withGenome : Animat → List ℤ → Animat
  | .mk _ n f a c i p, g => .mk g n f a c i p

instance : Inhabited Animat := ⟨.mk [] 0 ⟨0, 0⟩ [] 0 0 none⟩

/-! ## Selection (`select` in `pyanimats.py`) -/

/-- The ways the Python `select` can fail: `ValueError` from `max([])`,
`ZeroDivisionError` from `fitness / max_fitness` with `max_fitness == 0`, and
exhaustion of the modelled random stream (standing for a non-terminating
rejection loop). -/
inductive SelErr : Type where
  | emptyPopulation : SelErr
  | zeroDivision : SelErr
  | outOfDraws : SelErr
deriving DecidableEq, Repr

/-- One pass of the inner `while not done` loop of `select`: consume one
`(choice, random)` pair from the stream, pick the candidate with
`random.choice`, and test `random.random() <= candidate.fitness.value /
max_fitness`.  Python evaluates that division anew on each iteration and
raises `ZeroDivisionError` when `max_fitness == 0`. -/
def selectLoop (animats : List Animat) (maxFitness : ℚ) :
    List (ℕ × ℚ) → Except SelErr (Animat × List (ℕ × ℚ))
  | [] => .error .outOfDraws
  | (i, q) :: rest =>
    let candidate := animats.getD (i % animats.length) default
    if maxFitness = 0 then .error .zeroDivision
    else if q ≤ candidate.fitness.value / maxFitness then .ok (candidate, rest)
    else selectLoop animats maxFitness rest

/-- The outer `for i in range(k)` loop of `select`, appending each accepted
candidate to `chosen`. -/
def selectK (animats : List Animat) (maxFitness : ℚ) :
    ℕ → List (ℕ × ℚ) → Except SelErr (List Animat)
  | 0, _ => .ok []
  | k + 1, s =>
    match selectLoop animats maxFitness s with
    | .error e => .error e
    | .ok (a, rest) => (selectK animats maxFitness k rest).map (a :: ·)

/-- `select(animats, k)` from `pyanimats.py`: roulette-wheel selection of `k`
animats with replacement.  `max_fitness` is the maximum transformed fitness
over the population (`ValueError` on an empty population), then each of the
`k` slots runs the rejection loop. -/
def select (animats : List Animat) (k : ℕ) (stream : List (ℕ × ℚ)) :
    Except SelErr (List Animat) :=
  match (animats.map (fun animat => animat.fitness.value)).max? with
  | none => .error .emptyPopulation
  | some maxFitness => selectK animats maxFitness k stream

/-- Rejection-sampling acceptance loop as the spec words it: repeatedly draw
a uniformly random candidate from the full population, accept it exactly
when the next uniform draw is at most `candidate.fitness / max_fitness`.
`none` when the stream is exhausted. -/
def acceptOne (animats : List Animat) (maxFitness : ℚ) :
    List (ℕ × ℚ) → Option (Animat × List (ℕ × ℚ))
  | [] => none
  | (i, q) :: rest =>
    let candidate := animats.getD (i % animats.length) default
    if q ≤ candidate.fitness.value / maxFitness then some (candidate, rest)
    else acceptOne animats maxFitness rest

/-- Rejection sampling as the spec words it: compute the maximum transformed
fitness, then fill each of the `k` slots with the first accepted candidate,
threading the shared stream.  Defined from the spec's description of the
selection algorithm, to be compared with `select`. -/
def selectSpec (animats : List Animat) (k : ℕ) (stream : List (ℕ × ℚ)) :
    Option (List Animat) :=
  let maxFitness := ((animats.map (fun animat => animat.fitness.value)).max?).getD 0
  go maxFitness k stream
where
  /-- Fill `k` slots in order, threading the stream through `acceptOne`. -/
  go (maxFitness : ℚ) : ℕ → List (ℕ × ℚ) → Option (List Animat)
    | 0, _ => some []
    | k + 1, s =>
      match acceptOne animats maxFitness s with
      | none => none
      | some (a, rest) => (go maxFitness k rest).map (a :: ·)

/-! ## Fitness evaluation (`multi_fit_evaluate` / `single_fit_evaluate`) -/

/-- Modelled from the spec: `Fitness.set` lives in `animat.py`, which is not
among the given source files.  Per the spec it stores the fitness-function
output as `raw` and the exponentially reshaped selection fitness
(`FITNESS_BASE ** raw`) as `value`; the reshaping is abstracted as a
`transform` parameter because `FITNESS_BASE` and float exponentiation also
live outside the given sources. -/
def Fitness.set (transform : ℚ → ℚ) (raw : ℚ) : Fitness :=
  ⟨raw, transform raw⟩

/-- `multi_fit_evaluate(pop, gen)` from `pyanimats.py`: evaluate every animat
with the tuple-valued fitness function, store element 0 through
`animat.fitness.set` and the remaining tuple elements as
`animat.alt_fitness`. -/
def multi_fit_evaluate (transform : ℚ → ℚ) (evalF : Animat → List ℚ)
    (pop : List Animat) : List Animat :=
  pop.map (fun animat =>
    (animat.withFitness (Fitness.set transform (evalF animat).headI)).withAlt
      (evalF animat).tail)

/-- `single_fit_evaluate(pop, gen)` from `pyanimats.py`: evaluate every
animat with the scalar fitness function and store the result through
`animat.fitness.set`. -/
def single_fit_evaluate (transform : ℚ → ℚ) (evalF : Animat → ℚ)
    (pop : List Animat) : List Animat :=
  pop.map (fun animat =>
    animat.withFitness (Fitness.set transform (evalF animat)))

/-- Overwrite only the auxiliary metrics of an animat, leaving genome,
generation, fitness, counters and parent untouched. -/
def setAltOnly (g : Animat → List ℚ) (animat : Animat) : Animat :=
  animat.withAlt (g animat)

/-! ## Game-state statistics (`_most_common_states`,
`_average_over_game_states` in `fitness_functions.py`) -/

/-- Boolean lexicographic comparison of integer lists (componentwise, first
position most significant). -/
def lexLe : List ℤ → List ℤ → Bool
  | [], _ => true
  | _ :: _, [] => false
  | x :: xs, y :: ys =>
    if x < y then true else if y < x then false else lexLe xs ys

/-- The row order realized by `np.lexsort(game.T)`: the keys are the columns
of the game array and the last key is the primary one, so rows are ordered
as their reversals are ordered lexicographically.  `np.lexsort` is a stable
sort and rows comparing equivalent in this order are identical, so the
stable `List.insertionSort` with this order computes exactly
`game[np.lexsort(game.T), :]`. -/
def rowLe (a b : List ℤ) : Prop := lexLe a.reverse b.reverse = true

instance : DecidableRel rowLe := fun a b => by unfold rowLe; infer_instance

/-- Strict version of `rowLe`. -/
def rowLt (a b : List ℤ) : Prop := rowLe a b ∧ a ≠ b

/-- The comparison of `sorted(zip(unique_states, counts), key=lambda x: x[1],
reverse=True)`: pairs with larger counts come first.  Python's `sorted` is a
stable sort, so the stable `List.insertionSort` with this preorder computes
the same list. -/
def countDescLe (p q : List ℤ × ℤ) : Prop := q.2 ≤ p.2

instance : DecidableRel countDescLe := fun p q => by unfold countDescLe; infer_instance

/-- `np.diff` on a one-dimensional integer array: consecutive differences. -/
def diffs : List ℤ → List ℤ
  | a :: b :: rest => (b - a) :: diffs (b :: rest)
  | _ => []

/-- The boundary indices of the sorted game,
`np.where(np.any(np.diff(sorted_game, axis=0), 1))[0]`: those `i` with
`sorted_game[i] ≠ sorted_game[i+1]`. -/
def diffIdx (l : List (List ℤ)) : List ℕ :=
  (List.range (l.length - 1)).filter
    (fun i => decide (l.getD i [] ≠ l.getD (i + 1) []))

/-- The unique states of the sorted game,
`[sorted_game[i] for i in diff_idx] + [sorted_game[-1]]`. -/
def uniqueStates (l : List (List ℤ)) : List (List ℤ) :=
  (diffIdx l).map (fun i => l.getD i []) ++ [l.getLastD []]

/-- The occurrence counts, `np.diff(np.insert(diff_idx, 0, -1))`.  Note this
list is one entry shorter than `uniqueStates`: the final run of the sorted
game never receives a count. -/
def runCounts (l : List (List ℤ)) : List ℤ :=
  diffs ((-1) :: (diffIdx l).map Int.ofNat)

/-- `_most_common_states(game, n=False)` from `fitness_functions.py`; `n =
none` models `n=False`.  The steps mirror the source: sort the rows by
`np.lexsort`, read off the unique states and the run counts from the
boundary indices (`zip` truncates to the shorter `counts`, so the
lexicographically greatest unique state is dropped), sort the pairs stably
by descending count and keep the first `n`. -/
def most_common_states (game : List (List ℤ)) (n : Option ℕ) :
    List (List ℤ × ℤ) :=
  let sorted_game := List.insertionSort rowLe game
  let pairs := (uniqueStates sorted_game).zip (runCounts sorted_game)
  let m := (runCounts sorted_game).length
  let n' := match n with
    | none => m
    | some k => if k > m then m else k
  (List.insertionSort countDescLe pairs).take n'

/-- `_average_over_game_states(func, n=False)` from `fitness_functions.py`:
apply the wrapped per-state metric to every `(state, count)` pair returned
by `_most_common_states` and return `sums.mean()` — the sum divided by the
number of pairs.  (`np.mean` of an empty array is NaN; the properties below
stay on inputs with a nonempty pair list, where `ℚ` division agrees.) -/
def average_over_game_states (func : List ℤ → ℤ → ℚ) (n : Option ℕ)
    (game : List (List ℤ)) : ℚ :=
  ((most_common_states game n).map (fun p => func p.1 p.2)).sum /
    ((most_common_states game n).length : ℚ)

/-- Run-length encoding of consecutive equal states with integer counts,
used to state what the boundary-index computation extracts. -/
def rle : List (List ℤ) → List (List ℤ × ℤ)
  | [] => []
  | a :: l =>
    match rle l with
    | [] => [(a, 1)]
    | (b, k) :: rest =>
      if a = b then (a, k + 1) :: rest else (a, 1) :: (b, k) :: rest

/-- The total order that the stable descending-count sort realizes on the
pairs when the input states are strictly increasing: strictly larger count
first, ties by the lexicographic (last-component-primary) row order. -/
def countThenLexLe (p q : List ℤ × ℤ) : Prop :=
  q.2 < p.2 ∨ (p.2 = q.2 ∧ rowLe p.1 q.1)

instance : DecidableRel countThenLexLe := fun p q => by
  unfold countThenLexLe; infer_instance

/-- `_most_common_states` as the amended property describes it: the
run-length pairs of the lexicographically sorted game with the final
(lexicographically greatest) run dropped, ordered by descending count with
ties broken by the lexicographic row order, truncated to `n`.  Defined from
the amended property's words, to be compared with `most_common_states`. -/
def most_common_states_amended (game : List (List ℤ)) (n : Option ℕ) :
    List (List ℤ × ℤ) :=
  let full := List.insertionSort countThenLexLe
    ((rle (List.insertionSort rowLe game)).dropLast)
  full.take (match n with | none => full.length | some k => k)

/-! ## Statistics recording (`record` in `pyanimats.py`) -/

/-- One per-generation statistics record as compiled by `mstats.compile`:
the maxima tracked by the registered `Statistics` objects.  `np.max` over
the (never empty in `main`) population is modelled with default `0`. -/
structure Stats where
  fitnessMax : ℚ
  realFitnessMax : ℚ
  correctMax : ℕ
  incorrectMax : ℕ
deriving DecidableEq, Repr

/-- Maximum of a list of rationals, `0` for the empty list. -/
def maxQ (l : List ℚ) : ℚ := l.foldr max 0

/-- Maximum of a list of naturals, `0` for the empty list. -/
def maxN (l : List ℕ) : ℕ := l.foldr max 0

/-- `mstats.compile(pop)`: the per-population maxima. -/
def compileStats (pop : List Animat) : Stats :=
  ⟨maxQ (pop.map (fun a => a.fitness.raw)),
    maxQ (pop.map (fun a => a.fitness.value)),
    maxN (pop.map Animat.correct), maxN (pop.map Animat.incorrect)⟩

/-- `record(pop, gen)` from `pyanimats.py`, restricted to the Logbook: the
Hall of Fame update touches only the external `deap` Hall of Fame, and a
statistics record is appended exactly when `gen % log_interval == 0`. -/
def record (log_interval : ℕ) (pop : List Animat) (gen : ℕ)
    (logbook : List (ℕ × Stats)) : List (ℕ × Stats) :=
  if gen % log_interval = 0 then logbook ++ [(gen, compileStats pop)]
  else logbook

/-- The Logbook produced by `main`: `record(population, 0)` once, then
`record(offspring, gen)` for `gen = 1, ..., ngen` inside `process_gen`.  The
successive populations are abstracted as an oracle `pops`; whether a record
is appended depends only on the generation counter. -/
def runLogbook (log_interval ngen : ℕ) (pops : ℕ → List Animat) :
    List (ℕ × Stats) :=
  (List.range' 1 ngen).foldl
    (fun logbook gen => record log_interval (pops gen) gen logbook)
    (record log_interval (pops 0) 0 [])

/-! ## Snapshotting (`main` in `pyanimats.py`) -/

/-- The generation-count snapshot test
`gen % SNAPSHOT_GENERATION_INTERVAL == 0`.  `none` models
`SNAPSHOT_GENERATION_INTERVAL = float('inf')` (the `min_snapshots <= 0`
case), for which Python's `gen % float('inf') == 0` holds only at
`gen == 0`. -/
def genHit : Option ℕ → ℕ → Bool
  | none, gen => gen == 0
  | some k, gen => gen % k == 0

/-- The generations of the main loop at which a snapshot is written: `gen =
1, ..., ngen`, filtered by the wall-clock test (abstracted as the oracle
`timeHit`, false when snapshot timing is disabled or never reached) or the
generation-count test with interval `ngen // min_snapshots`. -/
def snapshot_gens (ngen : ℕ) (min_snapshots : ℤ) (timeHit : ℕ → Bool) :
    List ℕ :=
  let interval : Option ℕ :=
    if min_snapshots ≤ 0 then none else some (ngen / min_snapshots.toNat)
  (List.range' 1 ngen).filter (fun gen => timeHit gen || genHit interval gen)

/-- All persists of one run: the in-loop snapshots followed by the
unconditional final `save_data` at loop termination. -/
def persist_gens (ngen : ℕ) (min_snapshots : ℤ) (timeHit : ℕ → Bool) :
    List ℕ :=
  snapshot_gens ngen min_snapshots timeHit ++ [ngen]

/-! ## CLI option mapping (`cli_opt_to_param` in `pyanimats.py`) -/

/-- The conversion type applied to a CLI option value. -/
inductive ParamTy : Type where
  | int : ParamTy
  | float : ParamTy
  | str : ParamTy
deriving DecidableEq, Repr

/-- `cli_opt_to_param` from `pyanimats.py`, in source order: the map from
CLI option to experiment parameter name and conversion type.  Note the
source maps `--max-dup-del` to `min_dup_del_width`. -/
def cli_opt_to_param : List (String × String × ParamTy) :=
  [("--rng-seed", "rng_seed", .int),
   ("--snapshot", "snapshot_frequency", .int),
   ("--status-interval", "status_interval", .int),
   ("--min-snapshots", "min_snapshots", .int),
   ("--log-interval", "log_interval", .int),
   ("--num-samples", "num_samples", .int),
   ("--fitness", "fitness_function", .str),
   ("--num-gen", "ngen", .int),
   ("--pop-size", "popsize", .int),
   ("--init-genome", "init_genome", .str),
   ("--jumpstart", "init_start_codons", .int),
   ("--num-sensors", "num_sensors", .int),
   ("--num-hidden", "num_hidden", .int),
   ("--num-motors", "num_motors", .int),
   ("--world-width", "world_width", .int),
   ("--world-height", "world_height", .int),
   ("--mut-prob", "mutation_prob", .float),
   ("--dup-prob", "duplication_prob", .float),
   ("--del-prob", "deletion_prob", .float),
   ("--min-dup-del", "min_dup_del_width", .int),
   ("--max-dup-del", "min_dup_del_width", .int),
   ("--min-length", "min_genome_length", .int),
   ("--max-length", "max_genome_length", .int)]

/-- Write one key into an association list with Python `dict` semantics: a
later write to an existing key overwrites its value in place. -/
def dictWrite (m : List (String × String)) (key val : String) :
    List (String × String) :=
  if m.any (fun p => p.1 == key) then
    m.map (fun p => if p.1 == key then (key, val) else p)
  else m ++ [(key, val)]

/-- The `cli_overrides` dict comprehension: iterate `cli_opt_to_param` in
order and, for every option present on the command line, write the value
under the parameter name (values stay as raw strings here; the `int`/
`float`/`str` conversion is external to the claims).  Both `--min-dup-del`
and `--max-dup-del` write the key `min_dup_del_width`. -/
def cli_overrides (arguments : String → Option String) :
    List (String × String) :=
  cli_opt_to_param.foldl
    (fun m entry =>
      match arguments entry.1 with
      | none => m
      | some v => dictWrite m entry.2.1 v) []

/-! ## Generation loop and lineage (`process_gen` in `pyanimats.py`) -/

/-- Modelled from the spec: `Animat(experiment, genome)` in `animat.py` is
not among the given sources; per the spec a freshly created animat belongs
to generation 0 and has no parent. -/
def Animat.init (genome : List ℤ) : Animat :=
  .mk genome 0 ⟨0, 0⟩ [] 0 0 none

/-- Modelled from the spec: `animat.mutate()` lives in `animat.py`, which is
not among the given sources; per the spec (§4.1) the genome operations
transform only the genome, abstracted here as a function `μ` on genomes. -/
def mutate (μ : List ℤ → List ℤ) (animat : Animat) : Animat :=
  animat.withGenome (μ animat.genome)

/-- `process_gen(pop, gen)` from `pyanimats.py`: select `len(pop)` parents,
clone each, tag the clones with the new generation number, mutate each clone
and set its parent to the selected animat it was cloned from, then evaluate
the offspring.  (`record` touches only the Logbook and the external Hall of
Fame, not the animats, and is modelled separately.) -/
def process_gen (μ : List ℤ → List ℤ) (transform : ℚ → ℚ)
    (evalF : Animat → ℚ) (pop : List Animat) (gen : ℕ)
    (stream : List (ℕ × ℚ)) : Except SelErr (List Animat) :=
  (select pop pop.length stream).map (fun chosen =>
    let offspring := chosen.map (fun animat => animat.withGen gen)
    let varied := (offspring.zip chosen).map
      (fun p => (mutate μ p.1).withParent (some p.2))
    single_fit_evaluate transform evalF varied)

/-- The population sequence of `main`: the initial population of `popsize`
fresh animats is evaluated at generation 0, then `process_gen` runs for
generations `1, ..., g`, consuming one modelled random stream per
generation. -/
def evolve (μ : List ℤ → List ℤ) (transform : ℚ → ℚ) (evalF : Animat → ℚ)
    (genome : List ℤ) (popsize : ℕ) (streams : ℕ → List (ℕ × ℚ)) :
    ℕ → Except SelErr (List Animat)
  | 0 => .ok (single_fit_evaluate transform evalF
      (List.replicate popsize (Animat.init genome)))
  | g + 1 =>
    match evolve μ transform evalF genome popsize streams g with
    | .error e => .error e
    | .ok pop => process_gen μ transform evalF pop (g + 1) (streams (g + 1))

/-- The number of steps from an animat to its root along parent
back-references. -/
def Animat.ancestorSteps : Animat → ℕ
  | .mk _ _ _ _ _ _ none => 0
  | .mk _ _ _ _ _ _ (some p) => p.ancestorSteps + 1

/-- Modelled from the spec: `animat.lineage()` lives in `animat.py`, which
is not among the given sources; per the spec it produces the ordered
ancestry sequence from the animat back through its parents to the
generation-0 root. -/
def Animat.lineage : Animat → List Animat
  | .mk g n f a c i none => [.mk g n f a c i none]
  | .mk g n f a c i (some p) => .mk g n f a c i (some p) :: p.lineage

/-- The root ancestor at the end of the lineage. -/
def Animat.root : Animat → Animat
  | .mk g n f a c i none => .mk g n f a c i none
  | .mk _ _ _ _ _ _ (some p) => p.root

end PyAnimats

namespace PyAnimats

/-! ## Theorems -/

/-- Characterization of `List.max?` on rationals: the maximum is a member
and an upper bound. -/
theorem max?_eq_some_iff_rat {l : List ℚ} {a : ℚ} :
    l.max? = some a ↔ a ∈ l ∧ ∀ b ∈ l, b ≤ a := by
  have : Std.Antisymm (α := ℚ) (· ≤ ·) := ⟨fun h h' => le_antisymm h h'⟩
  exact List.max?_eq_some_iff (fun a => le_refl a) (fun a b => max_choice a b)
    (fun a b c => max_le_iff)

/-- C1: if every transformed fitness in a nonempty population is zero, then
`select` with `k ≥ 1` hits `candidate.fitness.value / max_fitness` with
`max_fitness == 0` on the first pass of the rejection loop and raises
`ZeroDivisionError` — it does not fall back to uniform selection. -/
theorem select_all_zero_fitness_zero_division (animats : List Animat) (k : ℕ)
    (stream : List (ℕ × ℚ)) (hne : animats ≠ [])
    (hzero : ∀ a ∈ animats, a.fitness.value = 0) (hk : 1 ≤ k)
    (hs : stream ≠ []) :
    select animats k stream = .error .zeroDivision := by
  have hmax : (animats.map (fun animat => animat.fitness.value)).max? = some 0 := by
    rw [max?_eq_some_iff_rat]
    obtain ⟨a, ha⟩ := List.exists_mem_of_ne_nil animats hne
    constructor
    · exact List.mem_map.mpr ⟨a, ha, hzero a ha⟩
    · intro b hb
      obtain ⟨a', ha', rfl⟩ := List.mem_map.mp hb
      exact le_of_eq (hzero a' ha')
  obtain ⟨k', rfl⟩ : ∃ k', k = k' + 1 := ⟨k - 1, (Nat.succ_pred_eq_of_pos hk).symm⟩
  obtain ⟨⟨i, q⟩, rest, rfl⟩ : ∃ p rest, stream = p :: rest := by
    cases stream with
    | nil => exact absurd rfl hs
    | cons p rest => exact ⟨p, rest, rfl⟩
  simp [select, hmax, selectK, selectLoop]

/-- Closed instance of the all-zero-fitness failure: a singleton population
with transformed fitness `0` and `k = 1` makes `select` raise. -/
theorem select_all_zero_fitness_zero_division_witness :
    (∀ a ∈ [Animat.mk [] 0 ⟨0, 0⟩ [] 0 0 none], a.fitness.value = 0) ∧
    select [Animat.mk [] 0 ⟨0, 0⟩ [] 0 0 none] 1 [(0, 1/2)] =
      .error .zeroDivision := by
  refine ⟨?_, select_all_zero_fitness_zero_division _ 1 _ ?_ ?_ ?_ ?_⟩
  · intro a ha
    simp only [List.mem_singleton] at ha
    subst ha; rfl
  · simp
  · intro a ha
    simp only [List.mem_singleton] at ha
    subst ha; rfl
  · exact le_refl 1
  · simp

/-- The rejection loop of the source agrees with the spec-side acceptance
loop whenever `max_fitness` is nonzero. -/
theorem selectLoop_eq_acceptOne (animats : List Animat) (maxFitness : ℚ)
    (hM : maxFitness ≠ 0) (s : List (ℕ × ℚ)) :
    selectLoop animats maxFitness s =
      match acceptOne animats maxFitness s with
      | none => .error .outOfDraws
      | some r => .ok r := by
  induction s with
  | nil => rfl
  | cons p rest ih =>
    obtain ⟨i, q⟩ := p
    simp only [selectLoop, acceptOne, if_neg hM]
    split
    · rfl
    · exact ih

/-- The `k`-slot selection of the source agrees with the spec-side `k`-slot
loop whenever `max_fitness` is nonzero. -/
theorem selectK_eq_selectSpecGo (animats : List Animat) (maxFitness : ℚ)
    (hM : maxFitness ≠ 0) (k : ℕ) (s : List (ℕ × ℚ)) :
    selectK animats maxFitness k s =
      match selectSpec.go animats maxFitness k s with
      | some chosen => .ok chosen
      | none => .error .outOfDraws := by
  induction k generalizing s with
  | zero => rfl
  | succ k ih =>
    simp only [selectK, selectSpec.go, selectLoop_eq_acceptOne animats maxFitness hM]
    cases acceptOne animats maxFitness s with
    | none => rfl
    | some r =>
      simp only [ih r.2]
      cases selectSpec.go animats maxFitness k r.2 with
      | none => rfl
      | some chosen => rfl

/-- C2: on a nonempty population with some strictly positive transformed
fitness, `select` is exactly the rejection sampling described by the spec:
it computes the maximum transformed fitness, then for each of the `k` slots
repeatedly draws a uniform candidate and accepts it exactly when the next
uniform draw from the shared stream is at most `candidate_fitness /
max_fitness`; selection is with replacement.  Exhaustion of the modelled
stream corresponds to the unbounded `while` loop never accepting. -/
theorem select_implements_rejection_sampling (animats : List Animat) (k : ℕ)
    (stream : List (ℕ × ℚ)) (hne : animats ≠ [])
    (hpos : ∃ a ∈ animats, 0 < a.fitness.value) :
    select animats k stream =
      match selectSpec animats k stream with
      | some chosen => .ok chosen
      | none => .error .outOfDraws := by
  cases hmax : (animats.map (fun animat => animat.fitness.value)).max? with
  | none =>
    rw [List.max?_eq_none_iff, List.map_eq_nil_iff] at hmax
    exact absurd hmax hne
  | some M =>
    have hMpos : 0 < M := by
      obtain ⟨a, ha, hapos⟩ := hpos
      have hle := (max?_eq_some_iff_rat.mp hmax).2 a.fitness.value
        (List.mem_map.mpr ⟨a, ha, rfl⟩)
      exact lt_of_lt_of_le hapos hle
    simp only [select, selectSpec, hmax, Option.getD_some]
    exact selectK_eq_selectSpecGo animats M (ne_of_gt hMpos) k stream

/-- Closed instance of the rejection-sampling equivalence: population of two
animats with fitness `1` and `2`, two slots, a stream that first rejects the
low-fitness candidate and then accepts both slots; the same (second) animat
could be drawn for both slots, selection being with replacement. -/
theorem select_implements_rejection_sampling_witness :
    (∃ a ∈ [Animat.mk [] 0 ⟨0, 1⟩ [] 0 0 none, Animat.mk [1] 0 ⟨1, 2⟩ [] 0 0 none],
      0 < a.fitness.value) ∧
    select [Animat.mk [] 0 ⟨0, 1⟩ [] 0 0 none, Animat.mk [1] 0 ⟨1, 2⟩ [] 0 0 none]
        2 [(0, 1), (1, 1), (0, 1/3)] =
      .ok [Animat.mk [1] 0 ⟨1, 2⟩ [] 0 0 none, Animat.mk [] 0 ⟨0, 1⟩ [] 0 0 none] := by
  constructor
  · exact ⟨Animat.mk [] 0 ⟨0, 1⟩ [] 0 0 none, by simp, by norm_num [Animat.fitness]⟩
  · rw [select_implements_rejection_sampling]
    · norm_num [selectSpec, selectSpec.go, acceptOne, Animat.fitness]
    · simp
    · exact ⟨Animat.mk [] 0 ⟨0, 1⟩ [] 0 0 none, by simp, by norm_num [Animat.fitness]⟩

/-- Overwriting the auxiliary metrics does not change the fitness record. -/
theorem fitness_setAltOnly (g : Animat → List ℚ) (a : Animat) :
    (setAltOnly g a).fitness = a.fitness := by
  cases a; rfl

/-- The fitness record after `withFitness` then `withAlt`. -/
theorem fitness_withFitness_withAlt (a : Animat) (f : Fitness) (l : List ℚ) :
    ((a.withFitness f).withAlt l).fitness = f := by
  cases a; rfl

/-- The auxiliary metrics after `withFitness` then `withAlt`. -/
theorem altFitness_withFitness_withAlt (a : Animat) (f : Fitness) (l : List ℚ) :
    ((a.withFitness f).withAlt l).altFitness = l := by
  cases a; rfl

/-- Indexing with a default commutes with `map` at in-range indices. -/
theorem getD_map_of_lt (f : Animat → Animat) (l : List Animat) (i : ℕ)
    (h : i < l.length) :
    (l.map f).getD i default = f (l.getD i default) := by
  rw [List.getD_eq_getElem?_getD, List.getD_eq_getElem?_getD, List.getElem?_map,
    List.getElem?_eq_getElem h]
  rfl

/-- The rejection loop makes the same choices on a population whose
auxiliary metrics have been overwritten. -/
theorem selectLoop_setAltOnly (g : Animat → List ℚ) (pop : List Animat)
    (hne : pop ≠ []) (M : ℚ) (s : List (ℕ × ℚ)) :
    selectLoop (pop.map (setAltOnly g)) M s =
      (selectLoop pop M s).map (fun r => (setAltOnly g r.1, r.2)) := by
  induction s with
  | nil => rfl
  | cons p rest ih =>
    obtain ⟨i, q⟩ := p
    have hlen : 0 < pop.length := List.length_pos.mpr hne
    have hd := getD_map_of_lt (setAltOnly g) pop (i % pop.length)
      (Nat.mod_lt i hlen)
    simp only [selectLoop, List.length_map, hd, fitness_setAltOnly]
    by_cases hM : M = 0
    · rw [if_pos hM, if_pos hM]; rfl
    · rw [if_neg hM, if_neg hM]
      split
      · rfl
      · exact ih

/-- The `k`-slot loop makes the same choices on a population whose auxiliary
metrics have been overwritten. -/
theorem selectK_setAltOnly (g : Animat → List ℚ) (pop : List Animat)
    (hne : pop ≠ []) (M : ℚ) (k : ℕ) (s : List (ℕ × ℚ)) :
    selectK (pop.map (setAltOnly g)) M k s =
      (selectK pop M k s).map (List.map (setAltOnly g)) := by
  induction k generalizing s with
  | zero => rfl
  | succ k ih =>
    simp only [selectK, selectLoop_setAltOnly g pop hne M s]
    cases selectLoop pop M s with
    | error e => rfl
    | ok r =>
      simp only [Except.map, ih r.2]
      cases selectK pop M k r.2 with
      | error e => rfl
      | ok chosen => rfl

/-- `select` never reads `alt_fitness`: overwriting the auxiliary metrics of
every animat changes the selection result only by that same overwrite. -/
theorem select_setAltOnly (g : Animat → List ℚ) (pop : List Animat) (k : ℕ)
    (s : List (ℕ × ℚ)) :
    select (pop.map (setAltOnly g)) k s =
      (select pop k s).map (List.map (setAltOnly g)) := by
  cases hpop : pop with
  | nil => rfl
  | cons a rest =>
    rw [← hpop]
    have hne : pop ≠ [] := by rw [hpop]; exact List.cons_ne_nil a rest
    have hvals : (pop.map (setAltOnly g)).map (fun animat => animat.fitness.value)
        = pop.map (fun animat => animat.fitness.value) := by
      rw [List.map_map]
      exact List.map_congr_left (fun a _ => by rw [Function.comp_apply,
        fitness_setAltOnly])
    simp only [select, hvals]
    cases (pop.map (fun animat => animat.fitness.value)).max? with
    | none => rfl
    | some M => exact selectK_setAltOnly g pop hne M k s

/-- C3: multi-objective evaluation stores element 0 of the fitness tuple as
the raw fitness, applies the exponential transform to it to obtain the
selection value, and stores the remaining tuple elements untouched as
`alt_fitness`; and the auxiliary metrics are never read by `select`, whose
result changes only by the same overwrite when every animat's `alt_fitness`
is replaced arbitrarily. -/
theorem multi_fit_evaluate_splits_tuple_and_select_ignores_alt
    (transform : ℚ → ℚ) (evalF : Animat → List ℚ) (pop : List Animat)
    (g : Animat → List ℚ) (k : ℕ) (stream : List (ℕ × ℚ)) :
    ((multi_fit_evaluate transform evalF pop).map (fun a => a.fitness.raw)
        = pop.map (fun a => (evalF a).headI)
      ∧ (multi_fit_evaluate transform evalF pop).map (fun a => a.fitness.value)
        = pop.map (fun a => transform (evalF a).headI)
      ∧ (multi_fit_evaluate transform evalF pop).map (fun a => a.altFitness)
        = pop.map (fun a => (evalF a).tail))
    ∧ ∀ (q : List Animat),
        select (q.map (setAltOnly g)) k stream
          = (select q k stream).map (List.map (setAltOnly g)) := by
  refine ⟨⟨?_, ?_, ?_⟩, fun q => select_setAltOnly g q k stream⟩ <;>
    simp [multi_fit_evaluate, Fitness.set, fitness_withFitness_withAlt,
      altFitness_withFitness_withAlt]

/-! ### Order lemmas for the row and pair comparisons -/

/-- `lexLe` is reflexive. -/
theorem lexLe_refl (a : List ℤ) : lexLe a a = true := by
  induction a with
  | nil => rfl
  | cons x xs ih => simp [lexLe, lt_irrefl, ih]

/-- `lexLe` is total. -/
theorem lexLe_total (a : List ℤ) : ∀ b, lexLe a b = true ∨ lexLe b a = true := by
  induction a with
  | nil => intro b; left; rfl
  | cons x xs ih =>
    intro b
    cases b with
    | nil => right; rfl
    | cons y ys =>
      rcases lt_trichotomy x y with h | h | h
      · left; simp [lexLe, h]
      · subst h
        rcases ih ys with h' | h'
        · left; simp [lexLe, lt_irrefl, h']
        · right; simp [lexLe, lt_irrefl, h']
      · right; simp [lexLe, h]

/-- `lexLe` is antisymmetric. -/
theorem lexLe_antisymm : ∀ {a b : List ℤ}, lexLe a b = true → lexLe b a = true →
    a = b := by
  intro a
  induction a with
  | nil =>
    intro b h1 h2
    cases b with
    | nil => rfl
    | cons y ys => exact absurd h2 (by simp [lexLe])
  | cons x xs ih =>
    intro b h1 h2
    cases b with
    | nil => exact absurd h1 (by simp [lexLe])
    | cons y ys =>
      rcases lt_trichotomy x y with h | h | h
      · simp [lexLe, asymm h, h] at h2
      · subst h
        simp only [lexLe, lt_irrefl, if_false] at h1 h2
        rw [ih h1 h2]
      · simp [lexLe, asymm h, h] at h1

/-- `lexLe` is transitive. -/
theorem lexLe_trans : ∀ {a b c : List ℤ}, lexLe a b = true → lexLe b c = true →
    lexLe a c = true := by
  intro a
  induction a with
  | nil => intro b c _ _; rfl
  | cons x xs ih =>
    intro b c h1 h2
    cases b with
    | nil => exact absurd h1 (by simp [lexLe])
    | cons y ys =>
      cases c with
      | nil => exact absurd h2 (by simp [lexLe])
      | cons z zs =>
        rcases lt_trichotomy x y with hxy | hxy | hxy
        · rcases lt_trichotomy y z with hyz | hyz | hyz
          · simp [lexLe, lt_trans hxy hyz]
          · subst hyz; simp [lexLe, hxy]
          · simp [lexLe, asymm hyz, hyz] at h2
        · subst hxy
          rcases lt_trichotomy x z with hxz | hxz | hxz
          · simp [lexLe, hxz]
          · subst hxz
            simp only [lexLe, lt_irrefl, if_false] at h1 h2 ⊢
            exact ih h1 h2
          · simp [lexLe, asymm hxz, hxz] at h2
        · simp [lexLe, asymm hxy, hxy] at h1

/-- `rowLe` is reflexive. -/
theorem rowLe_refl (a : List ℤ) : rowLe a a := lexLe_refl _

/-- `rowLe` is total. -/
theorem rowLe_total (a b : List ℤ) : rowLe a b ∨ rowLe b a := lexLe_total _ _

/-- `rowLe` is transitive. -/
theorem rowLe_trans {a b c : List ℤ} (h1 : rowLe a b) (h2 : rowLe b c) :
    rowLe a c := lexLe_trans h1 h2

/-- `rowLe` is antisymmetric. -/
theorem rowLe_antisymm {a b : List ℤ} (h1 : rowLe a b) (h2 : rowLe b a) :
    a = b :=
  List.reverse_injective (lexLe_antisymm h1 h2)

/-- `countThenLexLe` is total. -/
theorem countThenLexLe_total (p q : List ℤ × ℤ) :
    countThenLexLe p q ∨ countThenLexLe q p := by
  rcases lt_trichotomy p.2 q.2 with h | h | h
  · right; exact Or.inl h
  · rcases rowLe_total p.1 q.1 with h' | h'
    · left; exact Or.inr ⟨h, h'⟩
    · right; exact Or.inr ⟨h.symm, h'⟩
  · left; exact Or.inl h

/-- `countThenLexLe` is transitive. -/
theorem countThenLexLe_trans (p q r : List ℤ × ℤ) (h1 : countThenLexLe p q)
    (h2 : countThenLexLe q r) : countThenLexLe p r := by
  rcases h1 with h1 | ⟨h1e, h1l⟩ <;> rcases h2 with h2 | ⟨h2e, h2l⟩
  · exact Or.inl (lt_trans h2 h1)
  · exact Or.inl (h2e ▸ h1)
  · exact Or.inl (h1e ▸ h2)
  · exact Or.inr ⟨h1e.trans h2e, rowLe_trans h1l h2l⟩

/-- `countThenLexLe` is antisymmetric. -/
theorem countThenLexLe_antisymm (p q : List ℤ × ℤ) (h1 : countThenLexLe p q)
    (h2 : countThenLexLe q p) : p = q := by
  rcases h1 with h1 | ⟨h1e, h1l⟩ <;> rcases h2 with h2 | ⟨h2e, h2l⟩
  · exact absurd (lt_trans h1 h2) (lt_irrefl _)
  · exact absurd (h2e ▸ h1) (lt_irrefl _)
  · exact absurd (h1e ▸ h2) (lt_irrefl _)
  · exact Prod.ext (rowLe_antisymm h1l h2l) h1e

/-! ### The boundary-index computation extracts the run-length pairs -/

/-- `np.diff` is invariant under shifting the whole array. -/
theorem diffs_map_add_one (xs : List ℤ) : diffs (xs.map (· + 1)) = diffs xs := by
  induction xs with
  | nil => rfl
  | cons a t ih =>
    cases t with
    | nil => rfl
    | cons b rest =>
      show ((b + 1) - (a + 1)) :: diffs ((b :: rest).map (· + 1))
        = (b - a) :: diffs (b :: rest)
      rw [ih]
      norm_num

/-- Expanding `np.diff` after a shifted cons. -/
theorem diffs_cons_map_add_one (x : ℤ) (xs : List ℤ) :
    diffs ((x + 1) :: xs.map (· + 1)) = diffs (x :: xs) := by
  have h : (x + 1) :: xs.map (· + 1) = (x :: xs).map (· + 1) := rfl
  rw [h, diffs_map_add_one]

/-- `np.diff` shortens an array by one. -/
theorem diffs_length (xs : List ℤ) : (diffs xs).length = xs.length - 1 := by
  induction xs with
  | nil => rfl
  | cons a t ih =>
    cases t with
    | nil => rfl
    | cons b rest =>
      show (diffs (b :: rest)).length + 1 = (b :: rest).length
      rw [ih]
      simp

/-- There is one count per boundary index. -/
theorem runCounts_length (l : List (List ℤ)) :
    (runCounts l).length = (diffIdx l).length := by
  unfold runCounts
  rw [diffs_length, List.length_cons, List.length_map]
  omega

/-- There is one unique state per boundary index, plus the final one. -/
theorem uniqueStates_length (l : List (List ℤ)) :
    (uniqueStates l).length = (diffIdx l).length + 1 := by
  unfold uniqueStates
  rw [List.length_append, List.length_map, List.length_singleton]

/-- Filtering a range one longer splits off the index `0` and shifts. -/
theorem filter_range_succ (p : ℕ → Bool) (n : ℕ) :
    (List.range (n + 1)).filter p
      = (if p 0 then [0] else [])
          ++ ((List.range n).filter (fun i => p (i + 1))).map (· + 1) := by
  rw [List.range_succ_eq_map, List.filter_cons, List.filter_map]
  have hcomp : p ∘ Nat.succ = fun i => p (i + 1) := rfl
  have hmap : ∀ l : List ℕ, l.map Nat.succ = l.map (· + 1) := fun l => rfl
  rw [hcomp, hmap]
  by_cases h0 : p 0
  · rw [if_pos h0, if_pos h0]
    rfl
  · rw [if_neg h0, if_neg h0]
    rfl

/-- Recursion for the boundary indices: prepending a row shifts all indices
by one and contributes the boundary `0` exactly when the new first two rows
differ. -/
theorem diffIdx_cons_cons (a b : List ℤ) (t : List (List ℤ)) :
    diffIdx (a :: b :: t) =
      (if a = b then [] else [0]) ++ (diffIdx (b :: t)).map (· + 1) := by
  unfold diffIdx
  rw [show (a :: b :: t).length - 1 = t.length + 1 from rfl]
  rw [filter_range_succ]
  congr 1
  · show (if decide (a ≠ b) = true then [0] else []) = if a = b then [] else [0]
    by_cases hab : a = b
    · rw [if_neg (show ¬ (decide (a ≠ b) = true) by simpa using hab), if_pos hab]
    · rw [if_pos (show decide (a ≠ b) = true by simpa using hab), if_neg hab]

/-- The default of `getLastD` is irrelevant on a list with two or more
elements. -/
theorem getLastD_cons_cons (a b : List ℤ) (t : List (List ℤ))
    (d₁ d₂ : List ℤ) : (a :: b :: t).getLastD d₁ = (b :: t).getLastD d₂ := by
  rw [List.getLastD_cons, List.getLastD_cons, List.getLastD_cons]

/-- Prepending a copy of the first row does not change the unique states. -/
theorem uniqueStates_cons_cons_eq (a : List ℤ) (t : List (List ℤ)) :
    uniqueStates (a :: a :: t) = uniqueStates (a :: t) := by
  unfold uniqueStates
  rw [diffIdx_cons_cons, if_pos rfl, List.nil_append, List.map_map,
    getLastD_cons_cons a a t [] []]
  have hfun : List.map ((fun i => (a :: a :: t).getD i []) ∘ fun x => x + 1)
      (diffIdx (a :: t)) = List.map (fun i => (a :: t).getD i []) (diffIdx (a :: t)) :=
    List.map_congr_left (fun i _ => rfl)
  rw [hfun]

/-- Prepending a row different from the first one prepends it to the unique
states. -/
theorem uniqueStates_cons_cons_ne (a b : List ℤ) (t : List (List ℤ))
    (hab : a ≠ b) :
    uniqueStates (a :: b :: t) = a :: uniqueStates (b :: t) := by
  unfold uniqueStates
  rw [diffIdx_cons_cons, if_neg hab,
    show (([0] : List ℕ) ++ (diffIdx (b :: t)).map (· + 1))
      = 0 :: (diffIdx (b :: t)).map (· + 1) from rfl,
    List.map_cons, List.map_map, getLastD_cons_cons a b t [] [],
    List.getD_cons_zero, List.cons_append]
  have hfun : List.map ((fun i => (a :: b :: t).getD i []) ∘ fun x => x + 1)
      (diffIdx (b :: t)) = List.map (fun i => (b :: t).getD i []) (diffIdx (b :: t)) :=
    List.map_congr_left (fun i _ => rfl)
  rw [hfun]

/-- Prepending a copy of the first row increments the first count (when
there is one). -/
theorem runCounts_cons_cons_eq (a : List ℤ) (t : List (List ℤ)) :
    runCounts (a :: a :: t) =
      match runCounts (a :: t) with
      | [] => []
      | c :: cs => (c + 1) :: cs := by
  unfold runCounts
  rw [diffIdx_cons_cons, if_pos rfl, List.nil_append]
  cases hd : diffIdx (a :: t) with
  | nil => rfl
  | cons d0 ds =>
    have hmap : ((d0 :: ds).map (· + 1)).map Int.ofNat
        = ((d0 :: ds).map Int.ofNat).map (· + 1) := by
      simp only [List.map_map]
      apply List.map_congr_left
      intro i _
      simp [Function.comp, Int.ofNat_succ]
    rw [hmap, List.map_cons]
    show (Int.ofNat d0 + 1 - (-1)) :: diffs ((Int.ofNat d0 + 1) :: (ds.map Int.ofNat).map (· + 1))
      = (Int.ofNat d0 - (-1) + 1) :: diffs (Int.ofNat d0 :: ds.map Int.ofNat)
    rw [diffs_cons_map_add_one]
    have harith : Int.ofNat d0 + 1 - (-1) = Int.ofNat d0 - (-1) + 1 := by ring
    rw [harith]

/-- Prepending a row different from the first one prepends the count `1`. -/
theorem runCounts_cons_cons_ne (a b : List ℤ) (t : List (List ℤ))
    (hab : a ≠ b) :
    runCounts (a :: b :: t) = 1 :: runCounts (b :: t) := by
  unfold runCounts
  rw [diffIdx_cons_cons, if_neg hab]
  have hmap : ((diffIdx (b :: t)).map (· + 1)).map Int.ofNat
      = ((diffIdx (b :: t)).map Int.ofNat).map (· + 1) := by
    simp only [List.map_map]
    apply List.map_congr_left
    intro i _
    simp [Function.comp, Int.ofNat_succ]
  show diffs ((-1) :: ((0 : ℕ) :: (diffIdx (b :: t)).map (· + 1)).map Int.ofNat)
    = 1 :: diffs ((-1) :: (diffIdx (b :: t)).map Int.ofNat)
  rw [List.map_cons, hmap]
  show ((Int.ofNat 0) - (-1)) :: diffs (Int.ofNat 0 :: ((diffIdx (b :: t)).map Int.ofNat).map (· + 1))
    = 1 :: diffs ((-1) :: (diffIdx (b :: t)).map Int.ofNat)
  have h0 : (Int.ofNat 0) :: ((diffIdx (b :: t)).map Int.ofNat).map (· + 1)
      = ((-1 : ℤ) + 1) :: ((diffIdx (b :: t)).map Int.ofNat).map (· + 1) := by
    norm_num
  rw [h0, diffs_cons_map_add_one]
  norm_num

/-- The run-length encoding of a nonempty list starts with its first
element. -/
theorem rle_cons_shape (b : List ℤ) (t : List (List ℤ)) :
    ∃ k rest, rle (b :: t) = (b, k) :: rest := by
  cases hrt : rle t with
  | nil => exact ⟨1, [], by simp [rle, hrt]⟩
  | cons p rest' =>
    obtain ⟨c, k⟩ := p
    by_cases hb : b = c
    · exact ⟨k + 1, rest', by simp [rle, hrt, hb]⟩
    · exact ⟨1, (c, k) :: rest', by simp [rle, hrt, hb]⟩

/-- The unique states are the run states, and the counts are the run lengths
without the final one: the fencepost comment of the source made precise, on
a nonempty list. -/
theorem uniqueStates_runCounts_eq_rle (a : List ℤ) (t : List (List ℤ)) :
    uniqueStates (a :: t) = (rle (a :: t)).map Prod.fst ∧
    runCounts (a :: t) = ((rle (a :: t)).map Prod.snd).dropLast := by
  induction t generalizing a with
  | nil => exact ⟨rfl, rfl⟩
  | cons b t ih =>
    obtain ⟨ihu, ihc⟩ := ih b
    obtain ⟨k, rest, hrl⟩ := rle_cons_shape b t
    by_cases hab : a = b
    · subst hab
      have hrle : rle (a :: a :: t) = (a, k + 1) :: rest := by
        rw [show rle (a :: a :: t) = (match rle (a :: t) with
            | [] => [(a, 1)]
            | (b, k) :: rest =>
              if a = b then (a, k + 1) :: rest else (a, 1) :: (b, k) :: rest)
          from rfl, hrl]
        simp
      constructor
      · rw [uniqueStates_cons_cons_eq, ihu, hrl, hrle]
        simp
      · rw [runCounts_cons_cons_eq, ihc, hrl, hrle]
        cases rest with
        | nil => rfl
        | cons r rs => rfl
    · have hrle : rle (a :: b :: t) = (a, 1) :: (b, k) :: rest := by
        rw [show rle (a :: b :: t) = (match rle (b :: t) with
            | [] => [(a, 1)]
            | (c, k) :: rest =>
              if a = c then (a, k + 1) :: rest else (a, 1) :: (c, k) :: rest)
          from rfl, hrl]
        simp [hab]
      constructor
      · rw [uniqueStates_cons_cons_ne a b t hab, ihu, hrl, hrle]
        rfl
      · rw [runCounts_cons_cons_ne a b t hab, ihc, hrl, hrle]
        rfl

/-- Zipping the run states with the truncated run counts recovers the run
pairs without the final one. -/
theorem zip_map_fst_snd_dropLast {α β : Type} : ∀ (rl : List (α × β)),
    (rl.map Prod.fst).zip ((rl.map Prod.snd).dropLast) = rl.dropLast := by
  intro rl
  induction rl with
  | nil => rfl
  | cons p rl ih =>
    cases rl with
    | nil => rfl
    | cons q rl' =>
      show (p.1 :: (q :: rl').map Prod.fst).zip
          (p.2 :: ((q :: rl').map Prod.snd).dropLast)
        = p :: (q :: rl').dropLast
      rw [List.zip_cons_cons, ih]

/-! ### The stable descending-count sort on strictly increasing states -/

/-- Unfolding equation for `rle` on a cons. -/
theorem rle_cons_eq (a : List ℤ) (t : List (List ℤ)) :
    rle (a :: t) = match rle t with
      | [] => [(a, 1)]
      | (b, k) :: rest => if a = b then (a, k + 1) :: rest
          else (a, 1) :: (b, k) :: rest := rfl

/-- Every run state occurs in the encoded list. -/
theorem rle_fst_mem : ∀ (l : List (List ℤ)) (x : List ℤ),
    x ∈ (rle l).map Prod.fst → x ∈ l := by
  intro l
  induction l with
  | nil => intro x hx; simp [rle] at hx
  | cons a t ih =>
    intro x hx
    cases hrt : rle t with
    | nil =>
      rw [rle_cons_eq, hrt] at hx
      simp at hx
      simp [hx]
    | cons p rest =>
      obtain ⟨c, k⟩ := p
      have hrle : rle (a :: t)
          = if a = c then (a, k + 1) :: rest else (a, 1) :: (c, k) :: rest := by
        rw [rle_cons_eq, hrt]
      rw [hrle] at hx
      by_cases hac : a = c
      · rw [if_pos hac] at hx
        simp only [List.map_cons, List.mem_cons] at hx
        rcases hx with rfl | hx
        · exact List.mem_cons_self _ _
        · have hmem : x ∈ (rle t).map Prod.fst := by
            rw [hrt]
            simp only [List.map_cons, List.mem_cons]
            exact Or.inr hx
          exact List.mem_cons_of_mem a (ih x hmem)
      · rw [if_neg hac] at hx
        simp only [List.map_cons, List.mem_cons] at hx
        rcases hx with rfl | hx
        · exact List.mem_cons_self _ _
        · have hmem : x ∈ (rle t).map Prod.fst := by
            rw [hrt]
            simp only [List.map_cons, List.mem_cons]
            exact hx
          exact List.mem_cons_of_mem a (ih x hmem)

/-- On a `rowLe`-sorted list the run states are strictly increasing. -/
theorem rle_fst_pairwise : ∀ (l : List (List ℤ)), l.Pairwise rowLe →
    ((rle l).map Prod.fst).Pairwise rowLt := by
  intro l
  induction l with
  | nil => intro _; simp [rle]
  | cons a t ih =>
    intro hp
    have hpt : t.Pairwise rowLe := hp.of_cons
    have hrel : ∀ x ∈ t, rowLe a x := fun x hx => List.rel_of_pairwise_cons hp hx
    have iht := ih hpt
    cases hrt : rle t with
    | nil =>
      rw [rle_cons_eq, hrt]
      simp
    | cons p rest =>
      obtain ⟨c, k⟩ := p
      rw [hrt] at iht
      simp only [List.map_cons] at iht
      have hc_mem : c ∈ t := by
        apply rle_fst_mem t
        rw [hrt]
        simp
      have hrle : rle (a :: t)
          = if a = c then (a, k + 1) :: rest else (a, 1) :: (c, k) :: rest := by
        rw [rle_cons_eq, hrt]
      rw [hrle]
      by_cases hac : a = c
      · rw [if_pos hac]
        simp only [List.map_cons]
        subst hac
        exact iht
      · rw [if_neg hac]
        simp only [List.map_cons]
        constructor
        · intro x hx
          rcases List.mem_cons.mp hx with rfl | hx'
          · exact ⟨hrel x hc_mem, hac⟩
          · have hx_t : x ∈ t := by
              apply rle_fst_mem t
              rw [hrt]
              simp only [List.map_cons, List.mem_cons]
              exact Or.inr hx'
            refine ⟨hrel x hx_t, ?_⟩
            intro hax
            have hca : rowLt c x := List.rel_of_pairwise_cons iht hx'
            rw [← hax] at hca
            exact hac (rowLe_antisymm (hrel c hc_mem) hca.1)
        · exact iht

/-- Inserting a pair whose state strictly precedes every state in a
`countThenLexLe`-sorted list by the descending-count comparison keeps the
list `countThenLexLe`-sorted: the content of the stability of Python's
`sorted` on equal counts. -/
theorem orderedInsert_countDescLe_pairwise (p : List ℤ × ℤ) :
    ∀ (l : List (List ℤ × ℤ)), l.Pairwise countThenLexLe →
      (∀ q ∈ l, rowLt p.1 q.1) →
      (List.orderedInsert countDescLe p l).Pairwise countThenLexLe := by
  intro l
  induction l with
  | nil => intro _ _; simp [List.orderedInsert]
  | cons q t ih =>
    intro hl hp
    by_cases hpq : countDescLe p q
    · rw [List.orderedInsert, if_pos hpq]
      constructor
      · intro x hx
        have hx2 : x.2 ≤ p.2 := by
          rcases List.mem_cons.mp hx with rfl | hx'
          · exact hpq
          · have hqx := List.rel_of_pairwise_cons hl hx'
            have hxq : x.2 ≤ q.2 := by
              rcases hqx with h | ⟨he, _⟩
              · exact le_of_lt h
              · exact le_of_eq he.symm
            exact le_trans hxq hpq
        rcases lt_or_eq_of_le hx2 with h | h
        · exact Or.inl h
        · exact Or.inr ⟨h.symm, (hp x hx).1⟩
      · exact hl
    · rw [List.orderedInsert, if_neg hpq]
      have hqp : p.2 < q.2 := lt_of_not_le hpq
      constructor
      · intro x hx
        rcases (List.mem_orderedInsert countDescLe).mp hx with rfl | hx'
        · exact Or.inl hqp
        · exact List.rel_of_pairwise_cons hl hx'
      · exact ih hl.of_cons (fun x hx => hp x (List.mem_cons_of_mem q hx))

/-- The stable sort by descending count of a pair list with strictly
increasing states is `countThenLexLe`-sorted: ties on the count keep the
lexicographic state order. -/
theorem insertionSort_countDescLe_pairwise :
    ∀ (l : List (List ℤ × ℤ)), l.Pairwise (fun p q => rowLt p.1 q.1) →
      (List.insertionSort countDescLe l).Pairwise countThenLexLe := by
  intro l
  induction l with
  | nil => intro _; simp [List.insertionSort]
  | cons p t ih =>
    intro hp
    rw [List.insertionSort]
    apply orderedInsert_countDescLe_pairwise
    · exact ih hp.of_cons
    · intro q hq
      have hqt : q ∈ t := ((List.perm_insertionSort countDescLe t).mem_iff).mp hq
      exact List.rel_of_pairwise_cons hp hqt

/-- On a pair list with strictly increasing states, the stable sort by
descending count equals the sort by the total order `countThenLexLe`. -/
theorem insertionSort_countDescLe_eq_countThenLexLe
    (l : List (List ℤ × ℤ)) (h : l.Pairwise (fun p q => rowLt p.1 q.1)) :
    List.insertionSort countDescLe l = List.insertionSort countThenLexLe l := by
  haveI : IsAntisymm (List ℤ × ℤ) countThenLexLe := ⟨countThenLexLe_antisymm⟩
  haveI : IsTotal (List ℤ × ℤ) countThenLexLe := ⟨countThenLexLe_total⟩
  haveI : IsTrans (List ℤ × ℤ) countThenLexLe := ⟨countThenLexLe_trans⟩
  have hperm : List.Perm (List.insertionSort countDescLe l)
      (List.insertionSort countThenLexLe l) :=
    (List.perm_insertionSort _ l).trans (List.perm_insertionSort _ l).symm
  have hs1 : List.Sorted countThenLexLe (List.insertionSort countDescLe l) :=
    insertionSort_countDescLe_pairwise l h
  have hs2 : List.Sorted countThenLexLe (List.insertionSort countThenLexLe l) :=
    List.sorted_insertionSort _ l
  exact List.eq_of_perm_of_sorted hperm hs1 hs2

/-- The source-side truncation index equals the amended-side one. -/
theorem take_source_eq_take_amended {α : Type} (full : List α) (m : ℕ)
    (hm : full.length = m) (n : Option ℕ) :
    full.take (match n with | none => m | some k => if k > m then m else k)
      = full.take (match n with | none => full.length | some k => k) := by
  cases n with
  | none =>
    show full.take m = full.take full.length
    rw [hm]
  | some k =>
    show full.take (if k > m then m else k) = full.take k
    by_cases hk : k > m
    · rw [if_pos hk]
      rw [← hm] at hk
      rw [← hm, List.take_length, List.take_of_length_le (le_of_lt hk)]
    · rw [if_neg hk]

/-- C5 amended: on every nonempty game, `_most_common_states` returns the
first `n` of the run-length pairs of the lexicographically sorted game (the
final, lexicographically greatest run being dropped), ordered by strictly
descending count with ties broken by the lexicographic (last-component-
primary) row order — not by first-encountered order. -/
theorem most_common_states_eq_amended (game : List (List ℤ)) (n : Option ℕ)
    (hne : game ≠ []) :
    most_common_states game n = most_common_states_amended game n := by
  haveI : IsTotal (List ℤ) rowLe := ⟨rowLe_total⟩
  haveI : IsTrans (List ℤ) rowLe := ⟨fun a b c h1 h2 => rowLe_trans h1 h2⟩
  obtain ⟨a, t, hsg⟩ : ∃ a t, List.insertionSort rowLe game = a :: t := by
    cases hsg : List.insertionSort rowLe game with
    | nil =>
      exfalso
      have hperm := List.perm_insertionSort rowLe game
      rw [hsg] at hperm
      exact hne hperm.symm.eq_nil
    | cons a t => exact ⟨a, t, rfl⟩
  have hsorted : (List.insertionSort rowLe game).Pairwise rowLe :=
    List.sorted_insertionSort rowLe game
  have hbridge := uniqueStates_runCounts_eq_rle a t
  have hpairs : (uniqueStates (List.insertionSort rowLe game)).zip
      (runCounts (List.insertionSort rowLe game))
      = (rle (List.insertionSort rowLe game)).dropLast := by
    rw [hsg, hbridge.1, hbridge.2, zip_map_fst_snd_dropLast]
  have hstrict : ((rle (List.insertionSort rowLe game)).dropLast).Pairwise
      (fun p q => rowLt p.1 q.1) := by
    have h1 : ((rle (List.insertionSort rowLe game)).map Prod.fst).Pairwise rowLt :=
      rle_fst_pairwise _ hsorted
    have h2 : (rle (List.insertionSort rowLe game)).Pairwise
        (fun p q => rowLt p.1 q.1) := List.pairwise_map.mp h1
    exact h2.sublist (List.dropLast_sublist _)
  have hsort_eq := insertionSort_countDescLe_eq_countThenLexLe _ hstrict
  have hm : (List.insertionSort countThenLexLe
      ((rle (List.insertionSort rowLe game)).dropLast)).length
      = (runCounts (List.insertionSort rowLe game)).length := by
    rw [(List.perm_insertionSort _ _).length_eq, ← hpairs, List.length_zip,
      uniqueStates_length, runCounts_length]
    exact min_eq_right (Nat.le_succ _)
  simp only [most_common_states, most_common_states_amended]
  rw [hpairs, hsort_eq]
  exact take_source_eq_take_amended _ _ hm n

/-- Closed instance of the amended top-N description at the game of the C5
counterexample. -/
theorem most_common_states_eq_amended_witness :
    ([[0], [1]] : List (List ℤ)) ≠ [] ∧
    most_common_states [[0], [1]] (some 1)
      = most_common_states_amended [[0], [1]] (some 1) :=
  ⟨by simp, most_common_states_eq_amended [[0], [1]] (some 1) (by simp)⟩

/-- C4: counter-evidence for the state-averaging protocol.  On the game with
the two rows `[0]` and `[1]` and the metric `f(state, count) = state[0]`,
the wrapped average is `0`: `_most_common_states` hands the wrapper only the
pair `([0], 1)` — the distinct state `[1]` (the final run of the sorted
game) never receives a count and is dropped by `zip` — so the claimed
equal-weight mean over the two distinct states, `(0 + 1) / 2 = 1/2`, is not
what the code computes. -/
theorem average_over_game_states_drops_a_state :
    average_over_game_states (fun s _ => ((s.headD 0 : ℤ) : ℚ)) none [[0], [1]] = 0
    ∧ most_common_states [[0], [1]] none = [([0], 1)]
    ∧ ([[0], [1]] : List (List ℤ)).dedup.length = 2
    ∧ (0 : ℚ) ≠ (0 + 1) / 2 := by
  have h : most_common_states [[0], [1]] none = [([0], 1)] := by decide
  refine ⟨?_, h, by decide, by norm_num⟩
  rw [average_over_game_states, h]
  norm_num

/-- C10: counter-evidence for the completeness of `_most_common_states`.
The game `[[1],[1],[2],[2],[3]]` has three distinct states and five rows,
but the call with `n=False` returns only two pairs — the lexicographically
greatest distinct state `[3]` is dropped because `counts` is one entry
shorter than `unique_states` and `zip` truncates — and the returned counts
sum to `4`, not to the number of rows. -/
theorem most_common_states_drops_last_run :
    most_common_states [[1], [1], [2], [2], [3]] none = [([1], 2), ([2], 2)]
    ∧ ([[1], [1], [2], [2], [3]] : List (List ℤ)).dedup.length = 3
    ∧ ((most_common_states [[1], [1], [2], [2], [3]] none).map Prod.snd).sum = 4
    ∧ ([[1], [1], [2], [2], [3]] : List (List ℤ)).length = 5 := by
  decide

/-- C5 counterexample: in the game with rows `[0,1]` then `[1,0]` the two
distinct states occur once each — a tie — and `[0,1]` is encountered first,
yet the top-1 restriction returns `[1,0]`: the pair list is built from the
lexicographically sorted game (last component primary), `[0,1]`'s run is
the final one and is dropped, and sorting preserves the lexicographic, not
the first-encountered, order on ties. -/
theorem most_common_states_tie_not_first_encountered :
    most_common_states [[0, 1], [1, 0]] (some 1) = [([1, 0], 1)]
    ∧ most_common_states [[0, 1], [1, 0]] (some 1) ≠ [([0, 1], 1)]
    ∧ ([[0, 1], [1, 0]] : List (List ℤ)).count [0, 1]
        = ([[0, 1], [1, 0]] : List (List ℤ)).count [1, 0]
    ∧ ([[0, 1], [1, 0]] : List (List ℤ)).indexOf [0, 1]
        < ([[0, 1], [1, 0]] : List (List ℤ)).indexOf [1, 0] := by
  decide

/-! ### Logbook recording (C6) -/

/-- One more generation of the main loop appends the records of the new
generation counter. -/
theorem runLogbook_succ (li n : ℕ) (pops : ℕ → List Animat) :
    runLogbook li (n + 1) pops
      = record li (pops (1 + n)) (1 + n) (runLogbook li n pops) := by
  unfold runLogbook
  rw [List.range'_1_concat, List.foldl_append]
  rfl

/-- The generation stamps of the Logbook are the multiples of the interval. -/
theorem runLogbook_map_fst (li : ℕ) (pops : ℕ → List Animat) :
    ∀ n, (runLogbook li n pops).map Prod.fst
      = (List.range (n + 1)).filter (fun g => decide (g % li = 0)) := by
  intro n
  induction n with
  | zero =>
    show (record li (pops 0) 0 []).map Prod.fst
      = (List.range 1).filter (fun g => decide (g % li = 0))
    rw [record, if_pos (Nat.zero_mod li)]
    rfl
  | succ n ih =>
    rw [runLogbook_succ, List.range_succ, List.filter_append, record]
    by_cases hmod : (1 + n) % li = 0
    · rw [if_pos hmod, List.map_append, ih]
      have : (List.filter (fun g => decide (g % li = 0)) [n + 1]) = [n + 1] := by
        rw [List.filter_cons]
        have : ((n + 1) % li = 0) := by rw [Nat.add_comm]; exact hmod
        simp [this]
      rw [this]
      show _ ++ [1 + n] = _ ++ [n + 1]
      rw [Nat.add_comm 1 n]
    · rw [if_neg hmod, ih]
      have : (List.filter (fun g => decide (g % li = 0)) [n + 1]) = [] := by
        rw [List.filter_cons]
        have hmod' : ¬ ((n + 1) % li = 0) := by rw [Nat.add_comm]; exact hmod
        simp [hmod']
      rw [this, List.append_nil]

/-- Counting the multiples of `li` in `0, ..., n`. -/
theorem count_multiples (li : ℕ) (_hli : 0 < li) :
    ∀ n, ((List.range (n + 1)).filter (fun g => decide (g % li = 0))).length
      = n / li + 1 := by
  intro n
  induction n with
  | zero =>
    rw [Nat.zero_div]
    show (List.filter (fun g => decide (g % li = 0)) [0]).length = 0 + 1
    rw [List.filter_cons]
    simp [Nat.zero_mod]
  | succ n ih =>
    rw [List.range_succ, List.filter_append, List.length_append, ih]
    have hdvd : li ∣ (n + 1) ↔ (n + 1) % li = 0 := Nat.dvd_iff_mod_eq_zero
    by_cases hmod : (n + 1) % li = 0
    · have : (List.filter (fun g => decide (g % li = 0)) [n + 1]) = [n + 1] := by
        rw [List.filter_cons]
        simp [hmod]
      rw [this, Nat.succ_div, if_pos (hdvd.mpr hmod)]
      simp
    · have : (List.filter (fun g => decide (g % li = 0)) [n + 1]) = [] := by
        rw [List.filter_cons]
        simp [hmod]
      rw [this, Nat.succ_div, if_neg (fun h => hmod (hdvd.mp h))]
      simp

/-- C6 amended: a statistics record is appended to the Logbook exactly for
the generations `g` in `0, ..., ngen` with `g % log_interval == 0`
(generation 0 always included), and consequently in the end-to-end scenario
with 3 generations the Logbook holds exactly `⌊3/log_interval⌋ + 1` records
(floor, not ceiling, division). -/
theorem record_logs_exactly_multiples (li ngen : ℕ) (pops : ℕ → List Animat)
    (hli : 0 < li) :
    (runLogbook li ngen pops).map Prod.fst
      = (List.range (ngen + 1)).filter (fun g => decide (g % li = 0))
    ∧ (runLogbook li 3 pops).length = 3 / li + 1 := by
  refine ⟨runLogbook_map_fst li pops ngen, ?_⟩
  have h := runLogbook_map_fst li pops 3
  have hlen := congrArg List.length h
  rw [List.length_map] at hlen
  rw [hlen, count_multiples li hli 3]

/-- Closed instance of the Logbook cadence: interval 2, three generations. -/
theorem record_logs_exactly_multiples_witness :
    0 < 2
    ∧ (runLogbook 2 3 (fun _ => [])).map Prod.fst = [0, 2]
    ∧ (runLogbook 2 3 (fun _ => [])).length = 3 / 2 + 1 := by
  have h := record_logs_exactly_multiples 2 3 (fun _ => []) (by norm_num)
  refine ⟨by norm_num, ?_, h.2⟩
  rw [h.1]
  decide

/-- C6 counterexample to the claimed ceiling count: with `log_interval = 2`
the three-generation scenario yields records at generations 0 and 2 only —
2 records, not `⌈3/2⌉ + 1 = 3`. -/
theorem logbook_count_not_ceiling :
    (runLogbook 2 3 (fun _ => [])).length = 2
    ∧ (runLogbook 2 3 (fun _ => [])).length ≠ (3 + 2 - 1) / 2 + 1 := by
  constructor
  · rfl
  · intro h
    rw [show (runLogbook 2 3 (fun _ => [])).length = 2 from rfl] at h
    omega

/-! ### Snapshot cadence (C7) -/

/-- C7: with `min_snapshots = 2` and `ngen = 10` (wall-clock snapshotting
never triggering), the run persists at generations 5 and 10 — those `gen` in
`1, ..., 10` with `gen % (10 // 2) == 0` — plus the unconditional final
persist at loop termination; and with `min_snapshots ≤ 0` no snapshot is
ever triggered by generation count. -/
theorem snapshots_at_interval (timeHit : ℕ → Bool)
    (ht : ∀ g, timeHit g = false) :
    persist_gens 10 2 timeHit = [5, 10, 10]
    ∧ ∀ (ms : ℤ) (ngen : ℕ) (tH : ℕ → Bool), (∀ g, tH g = false) → ms ≤ 0 →
        snapshot_gens ngen ms tH = [] := by
  constructor
  · unfold persist_gens snapshot_gens
    simp only [ht, Bool.false_or]
    decide
  · intro ms ngen tH htH hms
    unfold snapshot_gens
    simp only [if_pos hms]
    rw [List.filter_eq_nil_iff]
    intro g hg
    obtain ⟨i, _, hgi⟩ := List.mem_range'.mp hg
    simp [htH, genHit, hgi]

/-- Closed instance of the snapshot cadence with the wall-clock trigger
disabled. -/
theorem snapshots_at_interval_witness :
    (∀ g, (fun _ : ℕ => false) g = false)
    ∧ persist_gens 10 2 (fun _ => false) = [5, 10, 10] :=
  ⟨fun _ => rfl, (snapshots_at_interval (fun _ => false) (fun _ => rfl)).1⟩

/-! ### CLI width-bound overrides (C8) -/

/-- C8: counter-evidence for distinct width-bound overrides.  In
`cli_opt_to_param` the option `--max-dup-del` is mapped to the parameter
`min_dup_del_width` (the same parameter as `--min-dup-del`), so supplying
`--max-dup-del 7` writes `min_dup_del_width` and no override for a maximum
width parameter is ever produced. -/
theorem max_dup_del_overrides_min_width :
    cli_opt_to_param.lookup "--max-dup-del" = some ("min_dup_del_width", ParamTy.int)
    ∧ cli_overrides (fun o => if o = "--max-dup-del" then some "7" else none)
        = [("min_dup_del_width", "7")]
    ∧ (cli_overrides (fun o => if o = "--max-dup-del" then some "7" else none)).lookup
        "max_dup_del_width" = none := by
  refine ⟨by decide, by decide, by decide⟩

/-! ### Lineage invariant (C9) -/

/-- The lineage has one entry per ancestry step plus the animat itself. -/
theorem lineage_length : ∀ (a : Animat), a.lineage.length = a.ancestorSteps + 1
  | .mk g n f al c i none => rfl
  | .mk g n f al c i (some p) => by
    show (Animat.mk g n f al c i (some p) :: p.lineage).length
      = p.ancestorSteps + 1 + 1
    rw [List.length_cons, lineage_length p]

/-- Fields of a fully assembled offspring: cloned from `c`, tagged with the
new generation, mutated, its parent set to `c`, and evaluated. -/
theorem offspring_fields (μ : List ℤ → List ℤ) (transform : ℚ → ℚ)
    (evalF : Animat → ℚ) (gen : ℕ) (c : Animat) :
    (((mutate μ (c.withGen gen)).withParent (some c)).withFitness
        (Fitness.set transform (evalF ((mutate μ (c.withGen gen)).withParent
          (some c))))).parent = some c
    ∧ (((mutate μ (c.withGen gen)).withParent (some c)).withFitness
        (Fitness.set transform (evalF ((mutate μ (c.withGen gen)).withParent
          (some c))))).gen = gen
    ∧ (((mutate μ (c.withGen gen)).withParent (some c)).withFitness
        (Fitness.set transform (evalF ((mutate μ (c.withGen gen)).withParent
          (some c))))).ancestorSteps = c.ancestorSteps + 1
    ∧ (((mutate μ (c.withGen gen)).withParent (some c)).withFitness
        (Fitness.set transform (evalF ((mutate μ (c.withGen gen)).withParent
          (some c))))).root = c.root := by
  cases c
  exact ⟨rfl, rfl, rfl, rfl⟩

/-- Zipping a mapped copy of a list with the list itself pairs every element
with its image. -/
theorem zip_map_self (f : Animat → Animat) :
    ∀ l : List Animat, (l.map f).zip l = l.map (fun x => (f x, x)) := by
  intro l
  induction l with
  | nil => rfl
  | cons a t ih =>
    show (f a, a) :: (t.map f).zip t = (f a, a) :: t.map (fun x => (f x, x))
    rw [ih]

/-- The rejection loop only returns members of a nonempty population. -/
theorem selectLoop_mem (pop : List Animat) (hne : pop ≠ []) (M : ℚ) :
    ∀ (s : List (ℕ × ℚ)) (a : Animat) (rest : List (ℕ × ℚ)),
      selectLoop pop M s = .ok (a, rest) → a ∈ pop := by
  intro s
  induction s with
  | nil => intro a rest h; exact absurd h (by simp [selectLoop])
  | cons p srest ih =>
    intro a rest h
    obtain ⟨i, q⟩ := p
    rw [selectLoop] at h
    by_cases hM : M = 0
    · rw [if_pos hM] at h
      exact absurd h (by simp)
    · rw [if_neg hM] at h
      by_cases hacc : q ≤ (pop.getD (i % pop.length) default).fitness.value / M
      · rw [if_pos hacc] at h
        have ha : a = pop.getD (i % pop.length) default := by
          injection h with h'
          exact (congrArg Prod.fst h').symm
        rw [ha, List.getD_eq_getElem pop default
          (Nat.mod_lt i (List.length_pos.mpr hne))]
        exact List.getElem_mem _
      · rw [if_neg hacc] at h
        exact ih a rest h

/-- The `k`-slot loop only returns members of a nonempty population. -/
theorem selectK_mem (pop : List Animat) (hne : pop ≠ []) (M : ℚ) :
    ∀ (k : ℕ) (s : List (ℕ × ℚ)) (chosen : List Animat),
      selectK pop M k s = .ok chosen → ∀ a ∈ chosen, a ∈ pop := by
  intro k
  induction k with
  | zero =>
    intro s chosen h a ha
    have : chosen = [] := by
      rw [selectK] at h
      injection h with h'
      exact h'.symm
    rw [this] at ha
    exact absurd ha (List.not_mem_nil a)
  | succ k ih =>
    intro s chosen h a ha
    rw [selectK] at h
    cases hloop : selectLoop pop M s with
    | error e => rw [hloop] at h; exact absurd h (by simp)
    | ok r =>
      obtain ⟨b, rest⟩ := r
      rw [hloop] at h
      have h2 : Except.map (fun x => b :: x) (selectK pop M k rest)
          = Except.ok chosen := h
      cases hk : selectK pop M k rest with
      | error e => rw [hk] at h2; exact absurd h2 (by simp [Except.map])
      | ok chosen' =>
        rw [hk] at h2
        have hch : chosen = b :: chosen' := by
          simp only [Except.map] at h2
          injection h2 with h'
          exact h'.symm
        rw [hch] at ha
        rcases List.mem_cons.mp ha with rfl | ha'
        · exact selectLoop_mem pop hne M s a rest (by rw [hloop])
        · exact ih rest chosen' hk a ha'

/-- `select` only returns members of the population. -/
theorem select_mem (pop : List Animat) (k : ℕ) (s : List (ℕ × ℚ))
    (chosen : List Animat) (h : select pop k s = .ok chosen) :
    ∀ a ∈ chosen, a ∈ pop := by
  unfold select at h
  cases hmax : (pop.map (fun animat => animat.fitness.value)).max? with
  | none => rw [hmax] at h; exact absurd h (by simp)
  | some M =>
    rw [hmax] at h
    have hne : pop ≠ [] := by
      intro hnil
      rw [hnil] at hmax
      simp at hmax
    exact selectK_mem pop hne M k s chosen h

/-- `process_gen` succeeds exactly when selection does, and then the new
population consists of the selected parents, cloned, retagged, mutated,
re-parented and evaluated. -/
theorem process_gen_members (μ : List ℤ → List ℤ) (transform : ℚ → ℚ)
    (evalF : Animat → ℚ) (pop : List Animat) (gen : ℕ)
    (stream : List (ℕ × ℚ)) (pop' : List Animat)
    (h : process_gen μ transform evalF pop gen stream = .ok pop') :
    ∃ chosen, select pop pop.length stream = .ok chosen ∧
      pop' = chosen.map (fun c =>
        ((mutate μ (c.withGen gen)).withParent (some c)).withFitness
          (Fitness.set transform
            (evalF ((mutate μ (c.withGen gen)).withParent (some c))))) := by
  unfold process_gen at h
  cases hsel : select pop pop.length stream with
  | error e => rw [hsel] at h; exact absurd h (by simp [Except.map])
  | ok chosen =>
    rw [hsel] at h
    simp only [Except.map] at h
    injection h with h'
    refine ⟨chosen, rfl, ?_⟩
    rw [← h']
    rw [zip_map_self (fun animat => animat.withGen gen) chosen]
    unfold single_fit_evaluate
    rw [List.map_map, List.map_map]
    rfl

/-- C9: in every reachable state of the generation loop, every animat of the
live population at generation `g` has generation tag `g`, a parent chain of
exactly `g` steps ending in a generation-0, parentless root, and a lineage
of length `g + 1`; offspring parents are the selected generation-`(g-1)`
animats they were cloned from. -/
theorem evolve_lineage_invariant (μ : List ℤ → List ℤ) (transform : ℚ → ℚ)
    (evalF : Animat → ℚ) (genome : List ℤ) (popsize : ℕ)
    (streams : ℕ → List (ℕ × ℚ)) :
    ∀ (g : ℕ) (pop : List Animat),
      evolve μ transform evalF genome popsize streams g = .ok pop →
      ∀ a ∈ pop, a.ancestorSteps = g ∧ a.gen = g
        ∧ a.lineage.length = g + 1
        ∧ a.root.gen = 0 ∧ a.root.parent = none
        ∧ (∀ p, a.parent = some p → p.gen = g - 1) := by
  intro g
  induction g with
  | zero =>
    intro pop h a ha
    rw [evolve] at h
    injection h with h'
    rw [← h'] at ha
    unfold single_fit_evaluate at ha
    obtain ⟨b, hb, rfl⟩ := List.mem_map.mp ha
    have hbinit : b = Animat.init genome := List.eq_of_mem_replicate hb
    rw [hbinit]
    refine ⟨rfl, rfl, rfl, rfl, rfl, ?_⟩
    intro p hp
    exact absurd hp (by simp [Animat.init, Animat.withFitness, Animat.parent])
  | succ g ih =>
    intro pop h a ha
    rw [evolve] at h
    cases hprev : evolve μ transform evalF genome popsize streams g with
    | error e => rw [hprev] at h; exact absurd h (by simp)
    | ok prev =>
      rw [hprev] at h
      obtain ⟨chosen, hsel, hform⟩ := process_gen_members μ transform evalF
        prev (g + 1) (streams (g + 1)) pop h
      rw [hform] at ha
      obtain ⟨c, hc, rfl⟩ := List.mem_map.mp ha
      have hcprev : c ∈ prev := select_mem prev prev.length (streams (g + 1))
        chosen hsel c hc
      obtain ⟨hsteps, hgen, _, hroot, hrootp, _⟩ := ih prev hprev c hcprev
      obtain ⟨hp, hg, hs, hr⟩ := offspring_fields μ transform evalF (g + 1) c
      refine ⟨?_, hg, ?_, ?_, ?_, ?_⟩
      · rw [hs, hsteps]
      · rw [lineage_length, hs, hsteps]
      · rw [hr, hroot]
      · rw [hr, hrootp]
      · intro p hpp
        rw [hp] at hpp
        injection hpp with hpp'
        rw [← hpp', hgen]
        rfl

/-- Closed instance of the lineage invariant after the initial evaluation:
a freshly evaluated generation-0 population of two animats. -/
theorem evolve_lineage_invariant_witness :
    evolve id id (fun _ => 1) [3] 2 (fun _ => []) 0
        = .ok [Animat.mk [3] 0 ⟨1, 1⟩ [] 0 0 none, Animat.mk [3] 0 ⟨1, 1⟩ [] 0 0 none]
    ∧ ∀ a ∈ [Animat.mk [3] 0 ⟨1, 1⟩ [] 0 0 none, Animat.mk [3] 0 ⟨1, 1⟩ [] 0 0 none],
        a.ancestorSteps = 0 ∧ a.gen = 0 ∧ a.lineage.length = 0 + 1
          ∧ a.root.gen = 0 ∧ a.root.parent = none
          ∧ (∀ p, a.parent = some p → p.gen = 0 - 1) :=
  ⟨rfl, evolve_lineage_invariant id id (fun _ => 1) [3] 2 (fun _ => []) 0
    [Animat.mk [3] 0 ⟨1, 1⟩ [] 0 0 none, Animat.mk [3] 0 ⟨1, 1⟩ [] 0 0 none] rfl⟩

end PyAnimats
